import Mathlib

/-
Shallow embedding of the rich-text conversion pipeline of noteman_desktop:
`src/markdown/parser.ts` (markdownToBlocks, parseInlineFormatting, mapLanguage)
and `extension/html-to-markdown.js` (htmlToMarkdown, stripHtml, processNode,
processElement, processList, processTable).

JavaScript strings are modeled as `List Char`.  Loops whose index advances by a
computed amount are modeled with an explicit fuel argument instantiated with a
bound that every terminating run stays strictly below, so that the fueled
function agrees with the source loop wherever the loop terminates; the one loop
of the source that can fail to make progress (the paragraph collector inside
`markdownToBlocks`) is modeled by returning `none`, meaning the source's
`while` loop repeats the very same state forever.
-/

/-- Characters treated as whitespace by the JavaScript `trim` method and the
regex class `\s` (the ASCII part, which is all the repository's inputs use). -/
def isJsWs (c : Char) : Bool :=
  c = ' ' || c = '\t' || c = '\n' || c = '\r' || c = Char.ofNat 11 || c = Char.ofNat 12

/-- Model of `String.prototype.trim`: strip leading and trailing whitespace. -/
def jsTrim (l : List Char) : List Char :=
  ((l.dropWhile isJsWs).reverse.dropWhile isJsWs).reverse

/-- Model of `String.prototype.slice(a, b)` for `0 ≤ a ≤ b`: the characters of
positions `a` (inclusive) to `b` (exclusive), clamped to the string length. -/
def sub (l : List Char) (a b : Nat) : List Char := (l.drop a).take (b - a)

/-- Model of `String.prototype.split('\n')`. -/
def splitNL : List Char → List (List Char)
  | [] => [[]]
  | c :: cs =>
    match splitNL cs with
    | [] => [[c]]
    | h :: t => if c = '\n' then [] :: h :: t else (c :: h) :: t

/-- One entry of the `allMatches` array built by `parseInlineFormatting`:
a regex match with its start offset, end offset (exclusive), captured content
and the annotations the surrounding code attaches to it. -/
structure MatchInfo where
  start : Nat
  stop : Nat
  content : List Char
  bold : Bool := false
  italic : Bool := false
  code : Bool := false
  link : Option (List Char) := none
deriving DecidableEq

/-- Annotation record of a Notion rich-text item (the `color` field of the
source is the constant `'default'` and is omitted). -/
structure Annotations where
  bold : Bool
  italic : Bool
  code : Bool
  strikethrough : Bool
  underline : Bool
deriving DecidableEq

/-- A Notion rich-text item as built by `parseInlineFormatting`: its `type` is
always `'text'`; plain segments carry no `annotations` object at all, which is
modeled by `none`. -/
structure RichTextItem where
  content : List Char
  link : Option (List Char) := none
  annotations : Option Annotations := none
deriving DecidableEq

/-- First position (if any) at which `pat` occurs as a contiguous sublist. -/
def findSub (pat : List Char) : List Char → Option Nat
  | [] => if pat.isPrefixOf ([] : List Char) then some 0 else none
  | c :: rest =>
    if pat.isPrefixOf (c :: rest) then some 0
    else (findSub pat rest).map (· + 1)

/-- First position `≥ j` at which `pat` occurs in `text`. -/
def findFrom (text pat : List Char) (j : Nat) : Option Nat :=
  (findSub pat (text.drop j)).map (· + j)

/-- Whether a list contains no newline: the regex `.` does not match `'\n'`. -/
def noNL (l : List Char) : Bool := l.all (fun c => c ≠ '\n')

/-- Whether `pat` occurs at position `i` of `text`. -/
def prefixAt (pat text : List Char) (i : Nat) : Bool := pat.isPrefixOf (text.drop i)

/-- Attempt of the regex `\*\*\*(.+?)\*\*\*` at start position `i`: the lazy
`(.+?)` makes the closing `***` the first occurrence at position `≥ i + 4`,
and every content character must be a non-newline (matched by `.`). -/
def attemptTriple (text : List Char) (i : Nat) : Option (MatchInfo × Nat) :=
  if prefixAt ("***".data) text i then
    match findFrom text ("***".data) (i + 4) with
    | some j =>
      if noNL (sub text (i + 3) j) then
        some ({ start := i, stop := j + 3, content := sub text (i + 3) j,
                bold := true, italic := true }, j + 3)
      else none
    | none => none
  else none

/-- Attempt of the regex `\*\*(.+?)\*\*` at start position `i`. -/
def attemptDouble (text : List Char) (i : Nat) : Option (MatchInfo × Nat) :=
  if prefixAt ("**".data) text i then
    match findFrom text ("**".data) (i + 3) with
    | some j =>
      if noNL (sub text (i + 2) j) then
        some ({ start := i, stop := j + 2, content := sub text (i + 2) j,
                bold := true }, j + 2)
      else none
    | none => none
  else none

/-- Attempt of the regex `(?<!\*)\*([^*]+?)\*(?!\*)` at start position `i`.
Since the content class `[^*]` excludes `'*'`, the closing `'*'` must be the
first `'*'` after position `i`, it must leave a nonempty content, and the
character after it must not be `'*'` (reading past the end yields the default
`' '`, which correctly passes the lookahead). -/
def attemptStarItalic (text : List Char) (i : Nat) : Option (MatchInfo × Nat) :=
  if prefixAt ("*".data) text i
      && (if i = 0 then true else text.getD (i - 1) ' ' != '*') then
    match findFrom text ("*".data) (i + 1) with
    | some j =>
      if decide (i + 2 ≤ j) && text.getD (j + 1) ' ' != '*' then
        some ({ start := i, stop := j + 1, content := sub text (i + 1) j,
                italic := true }, j + 1)
      else none
    | none => none
  else none

/-- Attempt of the regex `_(.+?)_` at start position `i`. -/
def attemptUnderscore (text : List Char) (i : Nat) : Option (MatchInfo × Nat) :=
  if prefixAt ("_".data) text i then
    match findFrom text ("_".data) (i + 2) with
    | some j =>
      if noNL (sub text (i + 1) j) then
        some ({ start := i, stop := j + 1, content := sub text (i + 1) j,
                italic := true }, j + 1)
      else none
    | none => none
  else none

/-- Attempt of the regex `` `(.+?)` `` at start position `i`. -/
def attemptBacktick (text : List Char) (i : Nat) : Option (MatchInfo × Nat) :=
  if prefixAt ("`".data) text i then
    match findFrom text ("`".data) (i + 2) with
    | some j =>
      if noNL (sub text (i + 1) j) then
        some ({ start := i, stop := j + 1, content := sub text (i + 1) j,
                code := true }, j + 1)
      else none
    | none => none
  else none

/-- Backtracking search of the regex `\[(.+?)\]\((.+?)\)` over the position `q`
of the closing bracket: the engine extends the lazy first group one character
at a time (failing for good once it would swallow a newline), and for each
candidate `](` position looks for the first `')'` making a valid second group. -/
def linkTryQ (text : List Char) (i : Nat) : Nat → Nat → Option (MatchInfo × Nat)
  | 0, _ => none
  | fuel + 1, q =>
    if q < text.length then
      if noNL (sub text (i + 1) q) then
        if text.getD q ' ' = ']' && text.getD (q + 1) ' ' = '(' then
          match findFrom text (")".data) (q + 3) with
          | some r =>
            if noNL (sub text (q + 2) r) then
              some ({ start := i, stop := r + 1, content := sub text (i + 1) q,
                      link := some (sub text (q + 2) r) }, r + 1)
            else linkTryQ text i fuel (q + 1)
          | none => linkTryQ text i fuel (q + 1)
        else linkTryQ text i fuel (q + 1)
      else none
    else none

/-- Attempt of the regex `\[(.+?)\]\((.+?)\)` at start position `i`. -/
def attemptLink (text : List Char) (i : Nat) : Option (MatchInfo × Nat) :=
  if text.getD i ' ' = '[' then linkTryQ text i (text.length + 1) (i + 2)
  else none

/-- Driver for `String.prototype.matchAll`: try a match at each position from
the current one; on success continue after the match, on failure advance one
position.  Every step advances the position, so fuel `text.length + 1` is never
exhausted. -/
def scanLoopF (text : List Char) (attempt : Nat → Option (MatchInfo × Nat)) :
    Nat → Nat → List MatchInfo
  | 0, _ => []
  | fuel + 1, i =>
    if i < text.length then
      match attempt i with
      | some (m, nxt) => m :: scanLoopF text attempt fuel nxt
      | none => scanLoopF text attempt fuel (i + 1)
    else []

/-- All matches of `\*\*\*(.+?)\*\*\*` in `text`, in order. -/
def scanTriple (text : List Char) : List MatchInfo :=
  scanLoopF text (attemptTriple text) (text.length + 1) 0

/-- All matches of `\*\*(.+?)\*\*` in `text`, in order. -/
def scanDouble (text : List Char) : List MatchInfo :=
  scanLoopF text (attemptDouble text) (text.length + 1) 0

/-- All matches of `(?<!\*)\*([^*]+?)\*(?!\*)` in `text`, in order. -/
def scanStarItalic (text : List Char) : List MatchInfo :=
  scanLoopF text (attemptStarItalic text) (text.length + 1) 0

/-- All matches of `_(.+?)_` in `text`, in order. -/
def scanUnderscore (text : List Char) : List MatchInfo :=
  scanLoopF text (attemptUnderscore text) (text.length + 1) 0

/-- All matches of `` `(.+?)` `` in `text`, in order. -/
def scanBacktick (text : List Char) : List MatchInfo :=
  scanLoopF text (attemptBacktick text) (text.length + 1) 0

/-- All matches of `\[(.+?)\]\((.+?)\)` in `text`, in order. -/
def scanLink (text : List Char) : List MatchInfo :=
  scanLoopF text (attemptLink text) (text.length + 1) 0

/-- The skip test of `parseInlineFormatting`: a candidate is dropped when some
already collected match fully covers its interval. -/
def coveredBy (acc : List MatchInfo) (m : MatchInfo) : Bool :=
  acc.any (fun m0 => decide (m0.start ≤ m.start) && decide (m.stop ≤ m0.stop))

/-- Append the candidates `ms` to the accumulated `acc`, skipping each candidate
already fully covered by a match collected before it. -/
def addChecked (acc : List MatchInfo) (ms : List MatchInfo) : List MatchInfo :=
  ms.foldl (fun a m => if coveredBy a m then a else a ++ [m]) acc

/-- The `allMatches` array of `parseInlineFormatting`: the five later categories
are checked against everything collected so far, the first is not. -/
def allMatches (text : List Char) : List MatchInfo :=
  let a1 := scanTriple text
  let a2 := addChecked a1 (scanDouble text)
  let a3 := addChecked a2 (scanStarItalic text)
  let a4 := addChecked a3 (scanUnderscore text)
  let a5 := addChecked a4 (scanBacktick text)
  addChecked a5 (scanLink text)

/-- Insert a match after every already placed match of start offset `≤` its
own, as a stable sort does. -/
def insertByStart (m : MatchInfo) : List MatchInfo → List MatchInfo
  | [] => [m]
  | x :: xs => if x.start ≤ m.start then x :: insertByStart m xs else m :: x :: xs

/-- Model of `allMatches.sort((a, b) => a.start - b.start)`: a stable sort by
start offset. -/
def sortByStart (ms : List MatchInfo) : List MatchInfo :=
  ms.foldl (fun acc m => insertByStart m acc) []

/-- The rich-text item built for an accepted match. -/
def richOf (m : MatchInfo) : RichTextItem :=
  { content := m.content, link := m.link,
    annotations := some { bold := m.bold, italic := m.italic, code := m.code,
                          strikethrough := false, underline := false } }

/-- The result-building loop of `parseInlineFormatting`: walk the sorted
matches with a cursor `pos`; skip any match starting before `pos`, otherwise
emit the plain gap (when nonempty), the match itself, and move the cursor to
the match end; finally emit the remaining tail of the text. -/
def buildFromMatches (text : List Char) : List MatchInfo → Nat → List RichTextItem
  | [], pos => if pos < text.length then [{ content := text.drop pos }] else []
  | m :: rest, pos =>
    if m.start < pos then buildFromMatches text rest pos
    else
      (if pos < m.start then
        (if sub text pos m.start = [] then [] else [({ content := sub text pos m.start } : RichTextItem)])
       else [])
      ++ richOf m :: buildFromMatches text rest m.stop

/-- Model of `parseInlineFormatting` of `src/markdown/parser.ts`. -/
def parseInlineFormatting (text : List Char) : List RichTextItem :=
  let result := buildFromMatches text (sortByStart (allMatches text)) 0
  if result = [] then [{ content := text }] else result

/-- The alias table of `mapLanguage`. -/
def languageAliases : List (List Char × List Char) :=
  [("js".data, ("javascript").data), ("ts".data, ("typescript").data),
   ("py".data, ("python").data), ("rb".data, ("ruby").data),
   ("sh".data, ("bash").data), ("yml".data, ("yaml").data),
   ("md".data, ("markdown").data)]

/-- The closed vocabulary `validLanguages` of `mapLanguage`. -/
def validLanguages : List (List Char) :=
  [("abap").data, ("arduino").data, ("bash").data, ("basic").data, ("c").data,
   ("clojure").data, ("coffeescript").data, ("cpp").data, ("csharp").data,
   ("css").data, ("dart").data, ("diff").data, ("docker").data, ("elixir").data,
   ("elm").data, ("erlang").data, ("flow").data, ("fortran").data,
   ("fsharp").data, ("gherkin").data, ("glsl").data, ("go").data,
   ("graphql").data, ("groovy").data, ("haskell").data, ("html").data,
   ("java").data, ("javascript").data, ("json").data, ("julia").data,
   ("kotlin").data, ("latex").data, ("less").data, ("lisp").data,
   ("livescript").data, ("lua").data, ("makefile").data, ("markdown").data,
   ("markup").data, ("matlab").data, ("mermaid").data, ("nix").data,
   ("objective-c").data, ("ocaml").data, ("pascal").data, ("perl").data,
   ("php").data, ("plain text").data, ("powershell").data, ("prolog").data,
   ("protobuf").data, ("python").data, ("r").data, ("reason").data,
   ("ruby").data, ("rust").data, ("sass").data, ("scala").data,
   ("scheme").data, ("scss").data, ("shell").data, ("sql").data,
   ("swift").data, ("typescript").data, ("vb.net").data, ("verilog").data,
   ("vhdl").data, ("visual basic").data, ("webassembly").data, ("xml").data,
   ("yaml").data]

/-- Model of `mapLanguage` of `src/markdown/parser.ts`: lower-case, apply the
alias table (the JavaScript `mapping[normalized] || normalized` idiom), then
keep the result only when it belongs to the closed vocabulary.  The lower-casing
is modeled for ASCII letters, which is what `toLowerCase` does on them. -/
def mapLanguage (lang : List Char) : List Char :=
  let normalized := lang.map Char.toLower
  let mapped := (List.lookup normalized languageAliases).getD normalized
  if mapped ∈ validLanguages then mapped else ("plain text").data

/-- A Notion block as produced by `markdownToBlocks`.  A bulleted item whose
source pushed no `children` field is modeled with the empty children list. -/
inductive Block where
  | paragraph (rich : List RichTextItem)
  | heading1 (rich : List RichTextItem)
  | heading2 (rich : List RichTextItem)
  | heading3 (rich : List RichTextItem)
  | bulleted (rich : List RichTextItem) (children : List Block)
  | numbered (rich : List RichTextItem)
  | code (language : List Char) (rich : List RichTextItem)
  | quote (rich : List RichTextItem)

/-- Test of the regex `^[-*]\s`. -/
def isBulletLine (l : List Char) : Bool :=
  match l with
  | m :: w :: _ => (m = '-' || m = '*') && isJsWs w
  | _ => false

/-- Length of the run of leading whitespace characters. -/
def leadingWs (l : List Char) : Nat := (l.takeWhile isJsWs).length

/-- Test of the regex `^\s{2,}[-*]\s`: since a bullet marker is not whitespace,
the greedy `\s{2,}` must take the whole leading whitespace run. -/
def isIndentedBullet (l : List Char) : Bool :=
  decide (2 ≤ leadingWs l) &&
  (match l.drop (leadingWs l) with
   | m :: w :: _ => (m = '-' || m = '*') && isJsWs w
   | _ => false)

/-- Model of `line.replace(/^\s{2,}[-*]\s/, '')` on a line matching the
pattern: drop the leading whitespace run, the marker and one whitespace. -/
def stripIndentedBullet (l : List Char) : List Char := l.drop (leadingWs l + 2)

/-- Test of the regex `^\s+>\s?`: since `'>'` is not whitespace, the greedy
`\s+` must take the whole leading whitespace run. -/
def isIndentedQuote (l : List Char) : Bool :=
  decide (1 ≤ leadingWs l) && l.getD (leadingWs l) ' ' = '>'

/-- Model of `line.replace(/^\s+>\s?/, '')` on a line matching the pattern:
drop the whitespace run, the `'>'`, and one more whitespace when present. -/
def stripIndentedQuote (l : List Char) : List Char :=
  let rest := l.drop (leadingWs l + 1)
  match rest with
  | c :: t => if isJsWs c then t else rest
  | [] => []

/-- Test of the regex `^\d+\.\s`. -/
def isNumberedLine (l : List Char) : Bool :=
  let ds := l.takeWhile Char.isDigit
  !ds.isEmpty &&
  (match l.drop ds.length with
   | d :: w :: _ => d = '.' && isJsWs w
   | _ => false)

/-- Model of `line.replace(/^\d+\.\s/, '')`: a line matching the pattern loses
its digits, the dot and one whitespace; any other line is unchanged. -/
def stripNumMarker (l : List Char) : List Char :=
  if isNumberedLine l then l.drop ((l.takeWhile Char.isDigit).length + 2) else l

/-- The condition of the paragraph-collecting loop of `markdownToBlocks`: a
non-blank line that starts none of the other constructs.  Note that it rejects
every line starting with `'#'`, even ones the heading branches do not accept. -/
def paraCond (l : List Char) : Bool :=
  !(jsTrim l).isEmpty
  && !(("#".data).isPrefixOf l)
  && !(("```".data).isPrefixOf l)
  && !(("> ".data).isPrefixOf l)
  && !isBulletLine l
  && !isNumberedLine l

/-- Model of the repeated `while (i < lines.length && p(lines[i])) { push; i++ }`
idiom of `markdownToBlocks`: the collected lines are the longest run of lines
satisfying `p` starting at index `i`. -/
def collectWhile (p : List Char → Bool) (lines : List (List Char)) (i : Nat) :
    List (List Char) :=
  (lines.drop i).takeWhile p

/-- Join a list of lines with `'\n'`. -/
def joinNL (ls : List (List Char)) : List Char := List.intercalate ("\n".data) ls

/-- Join a list of lines with `' '`. -/
def joinSpace (ls : List (List Char)) : List Char := List.intercalate (" ".data) ls

/-- The bullet-run loop of `markdownToBlocks` (lines 101–153 of the source):
starting at line `i`, as long as the current line is bullet-marked, consume the
item's own line, then every immediately following indented bullet line (each
one a nested child), then every immediately following indented quote line
(together one synthesized quote child).  Returns the pushed blocks and the
number of lines consumed.  Every iteration consumes at least one line, so fuel
`lines.length + 1` is never exhausted. -/
def bulletLoopAux (lines : List (List Char)) : Nat → Nat → List Block × Nat
  | 0, _ => ([], 0)
  | fuel + 1, i =>
    if decide (i < lines.length) && isBulletLine (lines.getD i []) then
      let itemText := (lines.getD i []).drop 2
      let nested := collectWhile isIndentedBullet lines (i + 1)
      let quotes := collectWhile isIndentedQuote lines (i + 1 + nested.length)
      let children :=
        nested.map (fun l => Block.bulleted (parseInlineFormatting (stripIndentedBullet l)) [])
        ++ (if quotes.isEmpty then [] else
              [Block.quote (parseInlineFormatting (joinNL (quotes.map stripIndentedQuote)))])
      let rest := bulletLoopAux lines fuel (i + 1 + nested.length + quotes.length)
      (Block.bulleted (parseInlineFormatting itemText) children :: rest.1,
       1 + nested.length + quotes.length + rest.2)
    else ([], 0)

/-- The bullet-run loop with its sufficient fuel. -/
def bulletLoop (lines : List (List Char)) (i : Nat) : List Block × Nat :=
  bulletLoopAux lines (lines.length + 1) i

/-- The main line loop of `markdownToBlocks`.  Every branch of the source's
loop body advances `i` by at least one line, except the paragraph branch when
the paragraph collector accepts no line at all: there the source's `while` loop
repeats the identical state forever, which is modeled by returning `none`.
Consequently fuel `lines.length + 1` is never exhausted on terminating runs and
`none` means the source loop does not terminate. -/
def mdLoopF (lines : List (List Char)) : Nat → Nat → List Block → Option (List Block)
  | 0, _, _ => none
  | fuel + 1, i, blocks =>
    if i < lines.length then
      let line := lines.getD i []
      if (jsTrim line).isEmpty then mdLoopF lines fuel (i + 1) blocks
      else if ("```".data).isPrefixOf line then
        let codeLines := collectWhile (fun l => !(("```".data).isPrefixOf l)) lines (i + 1)
        let langTok := jsTrim (line.drop 3)
        let language := if langTok.isEmpty then ("plain text").data else langTok
        mdLoopF lines fuel (i + 1 + codeLines.length + 1)
          (blocks ++ [Block.code (mapLanguage language) [{ content := joinNL codeLines }]])
      else if ("# ".data).isPrefixOf line then
        mdLoopF lines fuel (i + 1) (blocks ++ [Block.heading1 (parseInlineFormatting (line.drop 2))])
      else if ("## ".data).isPrefixOf line then
        mdLoopF lines fuel (i + 1) (blocks ++ [Block.heading2 (parseInlineFormatting (line.drop 3))])
      else if ("### ".data).isPrefixOf line then
        mdLoopF lines fuel (i + 1) (blocks ++ [Block.heading3 (parseInlineFormatting (line.drop 4))])
      else if isBulletLine line then
        let run := bulletLoop lines i
        mdLoopF lines fuel (i + run.2) (blocks ++ run.1)
      else if isNumberedLine line then
        let items := collectWhile isNumberedLine lines i
        mdLoopF lines fuel (i + items.length)
          (blocks ++ items.map (fun it => Block.numbered (parseInlineFormatting (stripNumMarker it))))
      else if ("> ".data).isPrefixOf line then
        let qs := collectWhile (fun l => ("> ".data).isPrefixOf l) lines i
        mdLoopF lines fuel (i + qs.length)
          (blocks ++ [Block.quote (parseInlineFormatting (joinNL (qs.map (fun l => l.drop 2))))])
      else
        let ps := collectWhile paraCond lines i
        if ps.isEmpty then none
        else mdLoopF lines fuel (i + ps.length)
          (blocks ++ [Block.paragraph (parseInlineFormatting (joinSpace ps))])
    else some blocks

/-- Model of `markdownToBlocks` of `src/markdown/parser.ts`.  The result is
`some` of the block list when the source function returns, and `none` when its
loop never terminates. -/
def markdownToBlocks (markdown : List Char) : Option (List Block) :=
  let lines := splitNL markdown
  mdLoopF lines (lines.length + 1) 0 []

/-- A parsed HTML DOM node: a text node, or an element with a tag name, an
attribute list and child nodes. -/
inductive HNode where
  | text (s : List Char)
  | elem (tag : List Char) (attrs : List (List Char × List Char)) (children : List HNode)

/-- Model of `el.getAttribute(name)`: `none` plays the role of `null`. -/
def lookupAttr (attrs : List (List Char × List Char)) (name : List Char) :
    Option (List Char) :=
  List.lookup name attrs

mutual

/-- Model of `el.textContent`: the concatenated text of all descendants.  As in
the walk below, every recursive call consumes one unit of fuel, and any fuel
bounding the number of calls (such as the tree size) gives the source's value. -/
def textContent : Nat → HNode → List Char
  | 0, _ => []
  | _ + 1, .text s => s
  | fuel + 1, .elem _ _ ks => textContentList fuel ks

/-- Concatenated text content of a list of sibling nodes. -/
def textContentList : Nat → List HNode → List Char
  | 0, _ => []
  | _ + 1, [] => []
  | fuel + 1, k :: ks => textContent fuel k ++ textContentList fuel ks

end

mutual

/-- Model of `el.querySelectorAll(tag)` (and, through `head?`, of
`el.querySelector(tag)`): every descendant element with the given lower-cased
tag name, in document (depth-first, pre-) order, the element itself excluded.
Fueled like the other tree walks. -/
def descendantsByTag : Nat → List Char → HNode → List HNode
  | 0, _, _ => []
  | _ + 1, _, .text _ => []
  | fuel + 1, t, .elem _ _ ks => descListByTag fuel t ks

/-- Descendants with a given tag of a list of sibling subtrees, in order. -/
def descListByTag : Nat → List Char → List HNode → List HNode
  | 0, _, _ => []
  | _ + 1, _, [] => []
  | fuel + 1, t, k :: ks =>
    (match k with
     | .text _ => []
     | .elem tag attrs kids =>
       (if tag.map Char.toLower = t then [HNode.elem tag attrs kids] else [])
       ++ descListByTag fuel t kids)
    ++ descListByTag fuel t ks

end

/-- The regex class `\w`. -/
def isWordChar (c : Char) : Bool := c.isAlpha || c.isDigit || c = '_'

/-- Model of `className.match(/language-(\w+)/)?.[1]`: the capture of the first
position where `language-` is followed by at least one word character. -/
def langTokenSearch : List Char → Option (List Char)
  | [] => none
  | c :: rest =>
    if (("language-").data).isPrefixOf (c :: rest) then
      let tok := ((c :: rest).drop 9).takeWhile isWordChar
      if tok.isEmpty then langTokenSearch rest else some tok
    else langTokenSearch rest

/-- Escape pipes: model of `.replace(/\|/g, '\\|')`. -/
def escapePipes (l : List Char) : List Char :=
  l.foldr (fun c acc => if c = '|' then '\\' :: '|' :: acc else c :: acc) []

/-- One emitted markdown table row: `| c1 | c2 | ... |` and a newline. -/
def rowLine (r : List (List Char)) : List Char :=
  ("| ").data ++ List.intercalate ((" | ").data) r ++ (" |\n").data

/-
The recursive DOM walk of `html-to-markdown.js`.  The source recursion has one
frame per processing call; here every recursive call consumes one unit of
fuel, so any fuel bounding the total number of calls (for instance twice the
tree size) makes the model agree with the source.  `processChildrenList fuel
ptag kids` models `processNode(node)` where `node` has tag `ptag` and children
`kids` (`node` is the `parentElement` of each element child, which is what the
`code`-inside-`pre` test reads).
-/
mutual

/-- Model of the node loop of `processNode`, with `ptag` the tag of the node
owning `kids`. -/
def processChildrenList : Nat → List Char → List HNode → List Char
  | _, _, [] => []
  | 0, _, _ => []
  | fuel + 1, ptag, k :: ks =>
    (match k with
     | .text s => s
     | .elem t a kids => processElement fuel ptag (HNode.elem t a kids))
    ++ processChildrenList fuel ptag ks

/-- Model of `processElement(el)` with `ptag` the tag of `el.parentElement`. -/
def processElement : Nat → List Char → HNode → List Char
  | 0, _, _ => []
  | fuel + 1, ptag, el =>
    match el with
    | .text s => s
    | .elem rawTag attrs kids =>
      let tag := rawTag.map Char.toLower
      if tag = ("strong").data || tag = ("b").data then
        ("**").data ++ processChildrenList fuel rawTag kids ++ ("**").data
      else if tag = ("em").data || tag = ("i").data then
        ("*").data ++ processChildrenList fuel rawTag kids ++ ("*").data
      else if tag = ("code").data then
        if ptag.map Char.toLower = ("pre").data then
          processChildrenList fuel rawTag kids
        else ("`").data ++ processChildrenList fuel rawTag kids ++ ("`").data
      else if tag = ("a").data then
        let txt := processChildrenList fuel rawTag kids
        match lookupAttr attrs (("href").data) with
        | some h =>
          if !h.isEmpty && !((("javascript:").data).isPrefixOf h) then
            ("[").data ++ txt ++ ("](").data ++ h ++ (")").data
          else txt
        | none => txt
      else if tag = ("br").data then ("\n").data
      else if tag = ("p").data then
        processChildrenList fuel rawTag kids ++ ("\n\n").data
      else if tag = ("div").data then
        processChildrenList fuel rawTag kids ++ ("\n").data
      else if tag = ("h1").data then
        ("# ").data ++ processChildrenList fuel rawTag kids ++ ("\n\n").data
      else if tag = ("h2").data then
        ("## ").data ++ processChildrenList fuel rawTag kids ++ ("\n\n").data
      else if tag = ("h3").data then
        ("### ").data ++ processChildrenList fuel rawTag kids ++ ("\n\n").data
      else if tag = ("h4").data then
        ("#### ").data ++ processChildrenList fuel rawTag kids ++ ("\n\n").data
      else if tag = ("h5").data then
        ("##### ").data ++ processChildrenList fuel rawTag kids ++ ("\n\n").data
      else if tag = ("h6").data then
        ("###### ").data ++ processChildrenList fuel rawTag kids ++ ("\n\n").data
      else if tag = ("ul").data then
        listWalk fuel false 1 kids ++ ("\n").data
      else if tag = ("ol").data then
        listWalk fuel true 1 kids ++ ("\n").data
      else if tag = ("li").data then
        processChildrenList fuel rawTag kids
      else if tag = ("pre").data then
        let codeEl := (descendantsByTag fuel (("code").data) el).head?
        let lang :=
          match codeEl with
          | some ce =>
            match ce with
            | .elem _ ceAttrs _ =>
              (langTokenSearch ((lookupAttr ceAttrs (("class").data)).getD [])).getD []
            | .text _ => []
          | none => []
        let codeTxt := match codeEl with
          | some ce => textContent fuel ce
          | none => textContent fuel el
        ("\n```").data ++ lang ++ ("\n").data ++ codeTxt ++ ("\n```\n").data
      else if tag = ("blockquote").data then
        let inner := jsTrim (processChildrenList fuel rawTag kids)
        joinNL ((splitNL inner).map (fun l => ("> ").data ++ l)) ++ ("\n\n").data
      else if tag = ("hr").data then ("\n---\n\n").data
      else if tag = ("script").data || tag = ("style").data
           || tag = ("noscript").data || tag = ("template").data then []
      else if tag = ("img").data then
        let alt := (lookupAttr attrs (("alt").data)).getD []
        let src := (lookupAttr attrs (("src").data)).getD []
        if !alt.isEmpty then ("[").data ++ alt ++ ("]").data
        else if !src.isEmpty then ("[image: ").data ++ src ++ ("]").data
        else []
      else if tag = ("table").data then
        processTable fuel el ++ ("\n\n").data
      else if tag = ("tr").data || tag = ("td").data || tag = ("th").data
           || tag = ("thead").data || tag = ("tbody").data || tag = ("tfoot").data then
        processChildrenList fuel rawTag kids
      else processChildrenList fuel rawTag kids

/-- The `ul`/`ol` walk of `processList`: only `li` element children produce an
item line, and only they advance the ordinal. -/
def listWalk : Nat → Bool → Nat → List HNode → List Char
  | _, _, _, [] => []
  | 0, _, _, _ => []
  | fuel + 1, isOl, idx, k :: ks =>
    match k with
    | .text _ => listWalk fuel isOl idx ks
    | .elem t _a kids =>
      if t.map Char.toLower = ("li").data then
        (if isOl then (toString idx).data ++ (". ").data else ("- ").data)
        ++ jsTrim (processChildrenList fuel t kids) ++ ("\n").data
        ++ listWalk fuel isOl (idx + 1) ks
      else listWalk fuel isOl idx ks

/-- The direct `td`/`th` element children of a row, each rendered, trimmed and
pipe-escaped, in order. -/
def rowCells : Nat → List HNode → List (List Char)
  | _, [] => []
  | 0, _ => []
  | fuel + 1, k :: ks =>
    (match k with
     | .text _ => []
     | .elem t _a kids =>
       if t.map Char.toLower = ("td").data || t.map Char.toLower = ("th").data then
         [escapePipes (jsTrim (processChildrenList fuel t kids))]
       else [])
    ++ rowCells fuel ks

/-- The cell lists of the collected `tr` elements, in document order. -/
def tableCellsOfRows : Nat → List HNode → List (List (List Char))
  | _, [] => []
  | 0, _ => []
  | fuel + 1, tr :: rest =>
    (match tr with
     | .elem _ _ kids => rowCells fuel kids
     | .text _ => []) :: tableCellsOfRows fuel rest

/-- Model of `processTable(tableEl)`: collect every descendant `tr`, keep the
rows with at least one `td`/`th` cell, pad every kept row to the maximal cell
count, and emit header, separator and data rows. -/
def processTable : Nat → HNode → List Char
  | 0, _ => []
  | fuel + 1, el =>
    let rows := (tableCellsOfRows fuel (descendantsByTag fuel (("tr").data) el)).filter
      (fun r => !r.isEmpty)
    let maxCols := rows.foldl (fun m r => max m r.length) 0
    match rows with
    | [] => []
    | r0 :: rest =>
      let pad := fun (r : List (List Char)) => r ++ List.replicate (maxCols - r.length) []
      rowLine (pad r0)
      ++ ("| ").data ++ List.intercalate ((" | ").data) ((pad r0).map (fun _ => ("---").data))
      ++ (" |\n").data
      ++ (rest.map (fun r => rowLine (pad r))).flatten

end

mutual

/-- An executable size of an HTML tree, an upper bound of its depth. -/
def hnodeSize : HNode → Nat
  | .text _ => 1
  | .elem _ _ ks => 1 + hnodeListSize ks

/-- Executable size of a list of sibling subtrees. -/
def hnodeListSize : List HNode → Nat
  | [] => 0
  | k :: ks => 1 + hnodeSize k + hnodeListSize ks

end

/-- Model of `processNode(node)` for a whole tree: iterate the children with
the node itself as their parent, with fuel that the tree depth never exhausts. -/
def processNode (n : HNode) : List Char :=
  match n with
  | .text _ => []
  | .elem t _ kids => processChildrenList (hnodeSize n * 2) t kids

/-- A JavaScript value passed to `htmlToMarkdown`: a string, `null`,
`undefined`, or any non-string value. -/
inductive JSVal where
  | str (s : List Char)
  | nullV
  | undefinedV
  | nonString

/-- Model of the last-resort regex strip `html.replace(/<[^>]*>/g, '')`: a
`'<'` is removed together with everything up to the first following `'>'`;
a `'<'` with no later `'>'` stays.  Each step consumes at least one character,
so fuel `length + 1` is never exhausted. -/
def regexStripTagsF : Nat → List Char → List Char
  | 0, l => l
  | _ + 1, [] => []
  | fuel + 1, c :: rest =>
    if c = '<' then
      match findSub ((">").data) rest with
      | some k => regexStripTagsF fuel (rest.drop (k + 1))
      | none => c :: regexStripTagsF fuel rest
    else c :: regexStripTagsF fuel rest

/-- The regex strip with its sufficient fuel. -/
def regexStripTags (l : List Char) : List Char := regexStripTagsF (l.length + 1) l

/-- Model of `stripHtml` of `html-to-markdown.js`.  The `dom` oracle stands for
the browser's HTML parser: `some tree` is the element the markup parses to, and
`none` means tree construction threw, which routes to the regex strip. -/
def stripHtml (html : List Char) (dom : List Char → Option HNode) : List Char :=
  match dom html with
  | some temp => textContent (hnodeSize temp * 2) temp
  | none => regexStripTags html

/-- Model of `htmlToMarkdown` of `html-to-markdown.js`: empty output for
`null`, `undefined`, non-strings and the empty string; otherwise the trimmed
result of the DOM walk, or `stripHtml` when the environment's parse throws
(the same `dom` oracle is consulted in both places, as both build the tree
from the same string in the same environment). -/
def htmlToMarkdown (html : JSVal) (dom : List Char → Option HNode) : List Char :=
  match html with
  | .str s =>
    if s.isEmpty then [] else
      match dom s with
      | some temp => jsTrim (processNode temp)
      | none => stripHtml s dom
  | _ => []

/-- Concatenation of the `content` fields of a list of rich-text items. -/
def joinContents (rs : List RichTextItem) : List Char :=
  (rs.map (fun r => r.content)).flatten

/-- A regex match of `parseInlineFormatting` is well formed: its interval is
nonempty and inside the text, and its captured content is a contiguous slice of
the text lying inside the match interval (for a link match, the label part). -/
def MatchBounded (text : List Char) (m : MatchInfo) : Prop :=
  m.start < m.stop ∧ m.stop ≤ text.length ∧
  ∃ a b, m.start ≤ a ∧ a ≤ b ∧ b ≤ m.stop ∧ m.content = sub text a b

/-- The matches the result-building loop of `parseInlineFormatting` accepts:
walking the sorted list with cursor `pos`, a match starting before `pos` is
skipped whole, any other match is accepted and moves the cursor to its end. -/
def acceptedFrom : Nat → List MatchInfo → List MatchInfo
  | _, [] => []
  | pos, m :: rest => if m.start < pos then acceptedFrom pos rest else m :: acceptedFrom m.stop rest

/-- The `rows` array of `processTable` after the collection loop: the cell
lists of all collected `tr` elements, rows without cells dropped. -/
def tableRowsOf (fuel : Nat) (el : HNode) : List (List (List Char)) :=
  (tableCellsOfRows fuel (descendantsByTag fuel (("tr").data) el)).filter (fun r => !r.isEmpty)

/-- The `maxCols` value of `processTable`: the running maximum of the kept
rows' cell counts, starting from zero. -/
def maxColsOf (fuel : Nat) (el : HNode) : Nat :=
  (tableRowsOf fuel el).foldl (fun m r => max m r.length) 0

/-- The row-padding loop of `processTable`: push empty cells until the row has
`n` cells. -/
def padRow (n : Nat) (r : List (List Char)) : List (List Char) :=
  r ++ List.replicate (n - r.length) []

/-- Reference function following the specification's description of one
bullet-list run (its section 4.3, item 4): as long as the first remaining line
is bullet-marked, emit an item whose children are one nested item per
immediately following whitespace-indented bullet line, then one synthesized
quote from the immediately following whitespace-indented quote lines, and
continue after them.  Stated over the remaining-lines suffix, to be compared
with the index-based loop `bulletLoopAux` of the parser. -/
def bulletRunSpecAux : Nat → List (List Char) → List Block
  | 0, _ => []
  | _ + 1, [] => []
  | fuel + 1, l :: rest =>
    if isBulletLine l then
      let nested := rest.takeWhile isIndentedBullet
      let afterN := rest.dropWhile isIndentedBullet
      let quotes := afterN.takeWhile isIndentedQuote
      Block.bulleted (parseInlineFormatting (l.drop 2))
        (nested.map (fun n => Block.bulleted (parseInlineFormatting (stripIndentedBullet n)) [])
         ++ (if quotes.isEmpty then [] else
              [Block.quote (parseInlineFormatting (joinNL (quotes.map stripIndentedQuote)))]))
      :: bulletRunSpecAux fuel (afterN.dropWhile isIndentedQuote)
    else []

/-- The reference bullet run with its sufficient fuel. -/
def bulletRunSpec (ls : List (List Char)) : List Block :=
  bulletRunSpecAux (ls.length + 1) ls

theorem processChildrenList_nil (fuel : Nat) (ptag : List Char) :
    processChildrenList fuel ptag [] = [] := by
  cases fuel <;> rfl

theorem jsTrim_cons_ne (c : Char) (t : List Char) (hc : isJsWs c = false) :
    (jsTrim (c :: t)).isEmpty = false := by
  unfold jsTrim
  rw [List.dropWhile_cons, hc]
  simp only [Bool.false_eq_true, if_false]
  cases hdw : ((c :: t).reverse).dropWhile isJsWs with
  | nil =>
    exfalso
    have := List.dropWhile_eq_nil_iff.mp hdw c (by simp)
    rw [hc] at this
    exact Bool.noConfusion this
  | cons a l => simp [hdw]

theorem dropWhile_eq_drop {α : Type} (p : α → Bool) (l : List α) :
    l.dropWhile p = l.drop (l.takeWhile p).length := by
  induction l with
  | nil => rfl
  | cons a t ih =>
    by_cases h : p a
    · simp [List.dropWhile_cons, List.takeWhile_cons, h, ih]
    · simp [List.dropWhile_cons, List.takeWhile_cons, h]

/-- Claim C2: the spec asserts `markdownToBlocks` terminates on every input,
including lines beginning with `'#'` that are no recognized heading.  The code
violates this: on the input `"#x"` the paragraph collector accepts no line
(it rejects every `'#'`-led line), no block is pushed and the index does not
advance, so the `while` loop repeats the same state forever.  The model
returns `none` at every fuel, i.e. the loop truly never terminates. -/
theorem markdownToBlocks_hash_line_diverges :
    (∀ fuel, mdLoopF (splitNL (("#x").data)) fuel 0 [] = none)
    ∧ markdownToBlocks (("#x").data) = none := by
  refine ⟨fun fuel => ?_, rfl⟩
  cases fuel with
  | zero => rfl
  | succ f => rfl

/-- Claim C3: the spec says a line of four or more hashes falls through to
paragraph handling and is consumed as (part of) a paragraph.  The code instead
loops forever on `"#### text"`: the heading branches do not match, and the
paragraph collector rejects every line starting with `'#'`, so the loop makes
no progress.  The model returns `none` at every fuel. -/
theorem markdownToBlocks_four_hash_diverges :
    (∀ fuel, mdLoopF (splitNL (("#### text").data)) fuel 0 [] = none)
    ∧ markdownToBlocks (("#### text").data) = none := by
  refine ⟨fun fuel => ?_, rfl⟩
  cases fuel with
  | zero => rfl
  | succ f => rfl

/-- Claim C6: `mapLanguage` lower-cases, applies the alias table and keeps the
result only when it is in the closed vocabulary, anything else canonicalizing
to the `plain text` sentinel — hence the result always belongs to the closed
vocabulary. -/
theorem mapLanguage_closed_vocabulary (lang : List Char) :
    mapLanguage lang ∈ validLanguages
    ∧ ((List.lookup (lang.map Char.toLower) languageAliases).getD (lang.map Char.toLower) ∈ validLanguages →
        mapLanguage lang = (List.lookup (lang.map Char.toLower) languageAliases).getD (lang.map Char.toLower))
    ∧ ((List.lookup (lang.map Char.toLower) languageAliases).getD (lang.map Char.toLower) ∉ validLanguages →
        mapLanguage lang = ("plain text").data) := by
  unfold mapLanguage
  by_cases h : (List.lookup (lang.map Char.toLower) languageAliases).getD (lang.map Char.toLower) ∈ validLanguages
  · refine ⟨?_, ?_, ?_⟩
    · rw [if_pos h]; exact h
    · intro _; rw [if_pos h]
    · intro hc; exact absurd h hc
  · refine ⟨?_, ?_, ?_⟩
    · rw [if_neg h]; decide
    · intro hc; exact absurd hc h
    · intro _; rw [if_neg h]

/-- Witness for claim C6 at the concrete input `"xyz"`, which is no alias and
not in the vocabulary, so it canonicalizes to the sentinel. -/
theorem mapLanguage_closed_vocabulary_witness :
    mapLanguage (("xyz").data) = ("plain text").data :=
  (mapLanguage_closed_vocabulary (("xyz").data)).2.2 (by decide)

/-- Claim C7: the DOM walk emits the same Markdown for bold wrapping italic as
for italic wrapping bold, and both equal the triple-asterisk form `***x***`,
for every inner text `x` (and at every recursion budget big enough for the
two-level markup). -/
theorem processElement_emphasis_nesting_commutes (fuel : Nat) (ptag x : List Char) :
    processElement (fuel + 4) ptag
        (HNode.elem (("strong").data) [] [HNode.elem (("em").data) [] [HNode.text x]])
      = ("***").data ++ x ++ ("***").data
    ∧ processElement (fuel + 4) ptag
        (HNode.elem (("em").data) [] [HNode.elem (("strong").data) [] [HNode.text x]])
      = ("***").data ++ x ++ ("***").data := by
  constructor
  · have h : processElement (fuel + 4) ptag
        (HNode.elem (("strong").data) [] [HNode.elem (("em").data) [] [HNode.text x]])
        = ("**").data ++ ((("*").data ++ (x ++ processChildrenList fuel (("em").data) [])
            ++ ("*").data) ++ []) ++ ("**").data := rfl
    rw [h]; simp [processChildrenList_nil]
  · have h : processElement (fuel + 4) ptag
        (HNode.elem (("em").data) [] [HNode.elem (("strong").data) [] [HNode.text x]])
        = ("*").data ++ ((("**").data ++ (x ++ processChildrenList fuel (("strong").data) [])
            ++ ("**").data) ++ []) ++ ("*").data := rfl
    rw [h]; simp [processChildrenList_nil]

/-- Claim C9: `htmlToMarkdown` returns the empty string on `null`, `undefined`,
non-string and empty-string inputs, and on every other string returns either
the trimmed DOM-walk output (when the environment parses the markup) or the
`stripHtml` fallback (when parsing throws) — it is a total function of its
input and the parse oracle. -/
theorem htmlToMarkdown_guard_and_fallback (dom : List Char → Option HNode) :
    htmlToMarkdown JSVal.nullV dom = []
    ∧ htmlToMarkdown JSVal.undefinedV dom = []
    ∧ htmlToMarkdown JSVal.nonString dom = []
    ∧ htmlToMarkdown (JSVal.str []) dom = []
    ∧ ∀ s : List Char, s ≠ [] →
        (∃ t, dom s = some t ∧ htmlToMarkdown (JSVal.str s) dom = jsTrim (processNode t))
        ∨ htmlToMarkdown (JSVal.str s) dom = stripHtml s dom := by
  refine ⟨rfl, rfl, rfl, rfl, fun s hs => ?_⟩
  unfold htmlToMarkdown
  have hne : s.isEmpty = false := by
    cases s with
    | nil => exact absurd rfl hs
    | cons a t => rfl
  cases hdom : dom s with
  | some t => exact Or.inl ⟨t, rfl, by simp [hne, hdom]⟩
  | none => exact Or.inr (by simp [hne, hdom])

/-- Witness for claim C9 at the concrete nonempty input `"x"` in an
environment whose parse throws: the result is the fallback's output. -/
theorem htmlToMarkdown_guard_and_fallback_witness :
    htmlToMarkdown (JSVal.str (("x").data)) (fun _ => none) = ("x").data := by
  rcases (htmlToMarkdown_guard_and_fallback (fun _ => none)).2.2.2.2 (("x").data) (by decide)
    with ⟨t, ht, -⟩ | h2
  · exact absurd ht (by simp)
  · exact h2.trans rfl

theorem collectWhile_eq (p : List Char → Bool) (lines : List (List Char)) (i : Nat) :
    collectWhile p lines i = (lines.drop i).takeWhile p := rfl

theorem getD_drop {α : Type} (l : List α) (m k : Nat) (d : α) :
    (l.drop m).getD k d = l.getD (m + k) d := by
  rw [List.getD_eq_getElem?_getD, List.getD_eq_getElem?_getD, List.getElem?_drop]

theorem takeWhile_stop {α : Type} (p : α → Bool) (l : List α) (d : α)
    (h : (l.takeWhile p).length < l.length) :
    p (l.getD (l.takeWhile p).length d) = false := by
  induction l with
  | nil => simp at h
  | cons a t ih =>
    rw [List.takeWhile_cons]
    by_cases hpa : p a = true
    · rw [if_pos hpa]
      rw [List.takeWhile_cons, if_pos hpa] at h
      simp only [List.length_cons] at h ⊢
      rw [List.getD_cons_succ]
      exact ih (by omega)
    · rw [if_neg hpa]
      simp only [List.length_nil]
      rw [List.getD_cons_zero]
      exact Bool.eq_false_iff.mpr hpa

/-- Claim C8: on a line opening a code fence, all subsequent lines are
consumed verbatim (no inline parsing) until a line beginning with three
backticks or the end of input.  Conjunct one: every consumed line is no fence
line; conjunct two (terminated fence): when the scan stops before the end of
input, the line it stops at begins with three backticks and the loop continues
after that closer line, having pushed a single code block whose sole span is
the consumed lines joined by newline, the closer excluded; conjunct three
(unterminated fence): when no fence line follows, every remaining line is
consumed and the loop still returns that single code block; conjunct four: an
empty language token defaults to the `plain text` sentinel.  No error in
either case. -/
theorem mdLoopF_code_fence (f : Nat) (lines : List (List Char)) (i : Nat)
    (acc : List Block)
    (h1 : i < lines.length)
    (h2 : (("```").data).isPrefixOf (lines.getD i []) = true) :
    (∀ l ∈ collectWhile (fun l => !(("```").data).isPrefixOf l) lines (i + 1),
        (("```").data).isPrefixOf l = false)
    ∧ (i + 1 + (collectWhile (fun l => !(("```").data).isPrefixOf l) lines (i + 1)).length
          < lines.length →
        (("```").data).isPrefixOf
            (lines.getD (i + 1 + (collectWhile (fun l => !(("```").data).isPrefixOf l) lines (i + 1)).length) [])
          = true
        ∧ mdLoopF lines (f + 2) i acc
            = mdLoopF lines (f + 1)
                (i + 1 + (collectWhile (fun l => !(("```").data).isPrefixOf l) lines (i + 1)).length + 1)
                (acc ++ [Block.code
                  (mapLanguage (if (jsTrim ((lines.getD i []).drop 3)).isEmpty then ("plain text").data
                                else jsTrim ((lines.getD i []).drop 3)))
                  [{ content := joinNL (collectWhile (fun l => !(("```").data).isPrefixOf l) lines (i + 1)) }]]))
    ∧ (lines.length ≤ i + 1 + (collectWhile (fun l => !(("```").data).isPrefixOf l) lines (i + 1)).length →
        collectWhile (fun l => !(("```").data).isPrefixOf l) lines (i + 1) = lines.drop (i + 1)
        ∧ mdLoopF lines (f + 2) i acc
            = some (acc ++ [Block.code
                (mapLanguage (if (jsTrim ((lines.getD i []).drop 3)).isEmpty then ("plain text").data
                              else jsTrim ((lines.getD i []).drop 3)))
                [{ content := joinNL (collectWhile (fun l => !(("```").data).isPrefixOf l) lines (i + 1)) }]]))
    ∧ ((jsTrim ((lines.getD i []).drop 3)).isEmpty = true →
        mapLanguage (if (jsTrim ((lines.getD i []).drop 3)).isEmpty then ("plain text").data
                     else jsTrim ((lines.getD i []).drop 3)) = ("plain text").data) := by
  have htrim : (jsTrim (lines.getD i [])).isEmpty = false := by
    rcases List.isPrefixOf_iff_prefix.mp h2 with ⟨t, ht⟩
    have hl : lines.getD i [] = '`' :: ('`' :: '`' :: t) := by rw [← ht]; rfl
    rw [hl]
    exact jsTrim_cons_ne _ _ rfl
  have hstep : mdLoopF lines (f + 2) i acc
      = mdLoopF lines (f + 1)
          (i + 1 + (collectWhile (fun l => !(("```").data).isPrefixOf l) lines (i + 1)).length + 1)
          (acc ++ [Block.code
            (mapLanguage (if (jsTrim ((lines.getD i []).drop 3)).isEmpty then ("plain text").data
                          else jsTrim ((lines.getD i []).drop 3)))
            [{ content := joinNL (collectWhile (fun l => !(("```").data).isPrefixOf l) lines (i + 1)) }]]) := by
    conv_lhs => rw [show f + 2 = (f + 1) + 1 from rfl]
    rw [mdLoopF]
    rw [if_pos h1]
    simp only [htrim, h2, Bool.false_eq_true, if_false, if_true]
  refine ⟨?_, fun hlt => ⟨?_, hstep⟩, fun hge => ?_, fun h => by rw [if_pos h]; decide⟩
  · intro l hl
    rw [collectWhile_eq] at hl
    have hp := List.mem_takeWhile_imp hl
    simpa using hp
  · have hlen : (collectWhile (fun l => !(("```").data).isPrefixOf l) lines (i + 1)).length
        < (lines.drop (i + 1)).length := by
      rw [List.length_drop]
      omega
    rw [collectWhile_eq] at hlen
    have hstop := takeWhile_stop (fun l => !(("```").data).isPrefixOf l) (lines.drop (i + 1))
      ([] : List Char) hlen
    rw [getD_drop] at hstop
    rw [collectWhile_eq]
    simpa using hstop
  · have hle := (List.takeWhile_prefix
      (l := lines.drop (i + 1)) (fun l => !(("```").data).isPrefixOf l)).length_le
    rw [← collectWhile_eq] at hle
    have hfull : collectWhile (fun l => !(("```").data).isPrefixOf l) lines (i + 1)
        = lines.drop (i + 1) := by
      rw [collectWhile_eq]
      refine (List.takeWhile_prefix _).eq_of_length ?_
      rw [← collectWhile_eq, List.length_drop]
      rw [List.length_drop] at hle
      omega
    refine ⟨hfull, ?_⟩
    rw [hstep]
    have hidx : i + 1 + (collectWhile (fun l => !(("```").data).isPrefixOf l) lines (i + 1)).length + 1
        = lines.length + 1 := by
      rw [hfull, List.length_drop]
      omega
    rw [hidx, mdLoopF, if_neg (by omega)]

/-- Witness for claim C8 on the concrete input with a terminated fence,
`"```js"`, `"x"`, `"```"`, `"y"`: the fence yields one `javascript` code block
holding exactly `"x"`, the closer is consumed, and parsing continues with the
paragraph `"y"`. -/
theorem mdLoopF_code_fence_witness :
    mdLoopF (splitNL (("```js\nx\n```\ny").data)) 5 0 []
      = some [Block.code (("javascript").data) [{ content := ("x").data }],
              Block.paragraph [{ content := ("y").data }]] := by
  have h := ((mdLoopF_code_fence 3 (splitNL (("```js\nx\n```\ny").data)) 0 []
      (by decide) (by decide)).2.1 (by decide)).2
  exact h.trans rfl

theorem foldl_max_init_le (l : List (List (List Char))) (a : Nat) :
    a ≤ l.foldl (fun m r => max m r.length) a := by
  induction l generalizing a with
  | nil => simp
  | cons r t ih => exact le_trans (le_max_left a r.length) (ih _)

theorem mem_le_foldl_max {r : List (List Char)} (l : List (List (List Char))) (a : Nat)
    (h : r ∈ l) : r.length ≤ l.foldl (fun m r => max m r.length) a := by
  induction l generalizing a with
  | nil => cases h
  | cons x t ih =>
    rcases List.mem_cons.mp h with rfl | hm
    · exact le_trans (le_max_right a r.length) (foldl_max_init_le t _)
    · exact ih _ hm

theorem processTable_eq (fuel : Nat) (el : HNode) :
    processTable (fuel + 1) el =
      match tableRowsOf fuel el with
      | [] => []
      | r0 :: rest =>
        rowLine (padRow (maxColsOf fuel el) r0)
        ++ ("| ").data ++ List.intercalate ((" | ").data)
            ((padRow (maxColsOf fuel el) r0).map (fun _ => ("---").data))
        ++ (" |\n").data
        ++ (rest.map (fun r => rowLine (padRow (maxColsOf fuel el) r))).flatten := rfl

/-- Claim C4: `processTable` drops rows with zero cells before computing the
column maximum, pads every kept row to exactly that maximum, emits nothing for
a table with no surviving rows, and otherwise emits the first kept row as the
header followed by a separator with one dash cell per column and the remaining
rows in order. -/
theorem processTable_row_normalization (fuel : Nat) (el : HNode) :
    (tableRowsOf fuel el = [] → processTable (fuel + 1) el = [])
    ∧ (∀ r ∈ (tableRowsOf fuel el).map (padRow (maxColsOf fuel el)),
        r.length = maxColsOf fuel el)
    ∧ (∀ r0 rest, tableRowsOf fuel el = r0 :: rest →
        processTable (fuel + 1) el =
          rowLine (padRow (maxColsOf fuel el) r0)
          ++ ("| ").data ++ List.intercalate ((" | ").data)
              (List.replicate (maxColsOf fuel el) (("---").data)) ++ (" |\n").data
          ++ (rest.map (fun r => rowLine (padRow (maxColsOf fuel el) r))).flatten) := by
  have hpadlen : ∀ r ∈ tableRowsOf fuel el,
      (padRow (maxColsOf fuel el) r).length = maxColsOf fuel el := by
    intro r hr
    have hle : r.length ≤ maxColsOf fuel el := mem_le_foldl_max _ 0 hr
    simp [padRow]
    omega
  refine ⟨?_, ?_, ?_⟩
  · intro hrows
    rw [processTable_eq, hrows]
  · intro r hr
    rcases List.mem_map.mp hr with ⟨s, hs, rfl⟩
    exact hpadlen s hs
  · intro r0 rest hrows
    rw [processTable_eq, hrows]
    have hr0 : r0 ∈ tableRowsOf fuel el := by rw [hrows]; exact List.mem_cons_self _ _
    simp only [List.map_const', hpadlen r0 hr0]

/-- Witness for claim C4 on a concrete table with a two-cell header row and a
one-cell data row: the data row is padded to two columns and the separator has
two dash cells. -/
theorem processTable_row_normalization_witness :
    processTable 10 (HNode.elem (("table").data) []
        [HNode.elem (("tr").data) [] [HNode.elem (("th").data) [] [HNode.text (("A").data)],
            HNode.elem (("th").data) [] [HNode.text (("B").data)]],
         HNode.elem (("tr").data) [] [HNode.elem (("td").data) [] [HNode.text (("1").data)]]])
      = ("| A | B |\n| --- | --- |\n| 1 |  |\n").data := by
  have h := (processTable_row_normalization 9 (HNode.elem (("table").data) []
      [HNode.elem (("tr").data) [] [HNode.elem (("th").data) [] [HNode.text (("A").data)],
          HNode.elem (("th").data) [] [HNode.text (("B").data)]],
       HNode.elem (("tr").data) [] [HNode.elem (("td").data) [] [HNode.text (("1").data)]]])).2.2
    [("A").data, ("B").data] [[("1").data]] (by decide)
  exact h.trans (by decide)

theorem bulletLoopAux_eq_spec :
    ∀ (f1 f2 i : Nat) (lines : List (List Char)),
    lines.length - i < f1 → lines.length - i < f2 →
    (bulletLoopAux lines f1 i).1 = bulletRunSpecAux f2 (lines.drop i) := by
  intro f1
  induction f1 with
  | zero => intro f2 i lines h1 _; omega
  | succ g ih =>
    intro f2 i lines h1 h2
    cases f2 with
    | zero => omega
    | succ f2' =>
      by_cases hi : i < lines.length
      · have hdrop : lines.drop i = lines.getD i [] :: lines.drop (i + 1) := by
          rw [List.getD_eq_getElem lines [] hi]
          exact List.drop_eq_getElem_cons hi
        by_cases hb : isBulletLine (lines.getD i []) = true
        · have hnested : (lines.drop (i + 1)).dropWhile isIndentedBullet
              = lines.drop (i + 1 + ((lines.drop (i + 1)).takeWhile isIndentedBullet).length) := by
            rw [dropWhile_eq_drop, List.drop_drop]
          rw [hdrop]
          simp only [bulletRunSpecAux]
          rw [if_pos hb]
          rw [hnested, dropWhile_eq_drop isIndentedQuote, List.drop_drop]
          simp only [bulletLoopAux, collectWhile]
          rw [if_pos (by simp only [hb, Bool.and_true]; exact decide_eq_true hi)]
          dsimp only
          refine congrArg₂ List.cons rfl ?_
          exact ih f2' _ lines (by omega) (by omega)
        · rw [hdrop]
          simp only [bulletRunSpecAux]
          rw [if_neg hb]
          simp only [bulletLoopAux, collectWhile]
          rw [if_neg (fun hcond => hb ((Bool.and_eq_true _ _).mp hcond).2)]
      · have hdrop : lines.drop i = [] := List.drop_eq_nil_of_le (by omega)
        rw [hdrop]
        simp [bulletLoopAux, bulletRunSpecAux, hi]

/-- Claim C5, amended: the bullet-run loop of `markdownToBlocks` produces, for
the lines from any start index on, exactly the blocks described by the
specification's lookahead rule with "indented by two or more spaces" read as
"indented by two or more whitespace characters": per item, one nested child
per immediately following whitespace-indented bullet line, then a single
synthesized quote child from the immediately following whitespace-indented
quote lines, the quote attaching only to the immediately preceding item, and
no children when neither construct follows. -/
theorem bulletLoop_eq_bulletRunSpec (lines : List (List Char)) (i : Nat) :
    (bulletLoop lines i).1 = bulletRunSpec (lines.drop i) := by
  unfold bulletLoop bulletRunSpec
  refine bulletLoopAux_eq_spec (lines.length + 1) ((lines.drop i).length + 1) i lines (by omega) ?_
  rw [List.length_drop]
  omega

/-- Counterexample to claim C5 as stated: after the item `"- a"`, the line
`"\t\t- b"` is indented by two tab characters — by zero spaces — and is not a
quote line, yet the code attaches it as a nested child (the source regex
`^\s{2,}[-*]\s` accepts any whitespace, not only spaces), so an item with
neither of the claim's constructs does carry a child. -/
theorem bullet_children_tab_indent_cex :
    markdownToBlocks (("- a\n\t\t- b").data)
      = some [Block.bulleted [⟨("a").data, none, none⟩]
          [Block.bulleted [⟨("b").data, none, none⟩] []]]
    ∧ ((("\t\t- b").data).takeWhile (fun c => c = ' ')).length = 0
    ∧ isIndentedBullet (("\t\t- b").data) = true :=
  ⟨rfl, rfl, rfl⟩
theorem findSub_isPrefixOf {pat : List Char} :
    ∀ {s : List Char} {k : Nat}, findSub pat s = some k →
    pat.isPrefixOf (s.drop k) = true := by
  intro s
  induction s with
  | nil =>
    intro k h
    unfold findSub at h
    split at h
    · cases h; simpa using ‹pat.isPrefixOf ([] : List Char) = true›
    · cases h
  | cons c rest ih =>
    intro k h
    unfold findSub at h
    split at h
    · cases h; simpa using ‹pat.isPrefixOf (c :: rest) = true›
    · rcases Option.map_eq_some'.mp h with ⟨k', hk', rfl⟩
      simpa using ih hk'

theorem findFrom_some {text pat : List Char} {j r : Nat} (h : findFrom text pat j = some r) :
    j ≤ r ∧ pat.isPrefixOf (text.drop r) = true := by
  unfold findFrom at h
  rcases Option.map_eq_some'.mp h with ⟨k, hk, rfl⟩
  refine ⟨by omega, ?_⟩
  have := findSub_isPrefixOf hk
  rw [List.drop_drop] at this
  rwa [Nat.add_comm j k] at this

theorem findFrom_bound {text pat : List Char} {j r : Nat} (h : findFrom text pat j = some r)
    (hp : pat ≠ []) : r + pat.length ≤ text.length := by
  obtain ⟨-, h2⟩ := findFrom_some h
  have hlen := (List.isPrefixOf_iff_prefix.mp h2).length_le
  rw [List.length_drop] at hlen
  have hp1 : 1 ≤ pat.length := by
    cases pat with
    | nil => exact absurd rfl hp
    | cons a t => simp
  omega

theorem attemptTriple_bounded {text : List Char} {i : Nat} {m : MatchInfo} {nxt : Nat}
    (h : attemptTriple text i = some (m, nxt)) : MatchBounded text m := by
  unfold attemptTriple at h
  by_cases hc1 : prefixAt (("***").data) text i = true
  · rw [if_pos hc1] at h
    cases hfind : findFrom text (("***").data) (i + 4) with
    | none => rw [hfind] at h; dsimp only at h; cases h
    | some j =>
      rw [hfind] at h
      dsimp only at h
      by_cases hc2 : noNL (sub text (i + 3) j) = true
      · rw [if_pos hc2] at h
        cases h
        obtain ⟨hj, -⟩ := findFrom_some hfind
        have hb := findFrom_bound hfind (by decide)
        rw [show ((("***").data).length) = 3 from rfl] at hb
        refine ⟨?_, ?_, i + 3, j, ?_, ?_, ?_, rfl⟩ <;> dsimp only <;> omega
      · rw [if_neg hc2] at h; cases h
  · rw [if_neg hc1] at h; cases h

theorem attemptDouble_bounded {text : List Char} {i : Nat} {m : MatchInfo} {nxt : Nat}
    (h : attemptDouble text i = some (m, nxt)) : MatchBounded text m := by
  unfold attemptDouble at h
  by_cases hc1 : prefixAt (("**").data) text i = true
  · rw [if_pos hc1] at h
    cases hfind : findFrom text (("**").data) (i + 3) with
    | none => rw [hfind] at h; dsimp only at h; cases h
    | some j =>
      rw [hfind] at h
      dsimp only at h
      by_cases hc2 : noNL (sub text (i + 2) j) = true
      · rw [if_pos hc2] at h
        cases h
        obtain ⟨hj, -⟩ := findFrom_some hfind
        have hb := findFrom_bound hfind (by decide)
        rw [show ((("**").data).length) = 2 from rfl] at hb
        refine ⟨?_, ?_, i + 2, j, ?_, ?_, ?_, rfl⟩ <;> dsimp only <;> omega
      · rw [if_neg hc2] at h; cases h
  · rw [if_neg hc1] at h; cases h

theorem attemptStarItalic_bounded {text : List Char} {i : Nat} {m : MatchInfo} {nxt : Nat}
    (h : attemptStarItalic text i = some (m, nxt)) : MatchBounded text m := by
  unfold attemptStarItalic at h
  by_cases hc1 : (prefixAt (("*").data) text i
      && (if i = 0 then true else text.getD (i - 1) ' ' != '*')) = true
  · rw [if_pos hc1] at h
    cases hfind : findFrom text (("*").data) (i + 1) with
    | none => rw [hfind] at h; dsimp only at h; cases h
    | some j =>
      rw [hfind] at h
      dsimp only at h
      by_cases hc2 : (decide (i + 2 ≤ j) && text.getD (j + 1) ' ' != '*') = true
      · rw [if_pos hc2] at h
        cases h
        obtain ⟨hj, -⟩ := findFrom_some hfind
        have hb := findFrom_bound hfind (by decide)
        rw [show ((("*").data).length) = 1 from rfl] at hb
        have hij : i + 2 ≤ j := of_decide_eq_true ((Bool.and_eq_true _ _).mp hc2).1
        refine ⟨?_, ?_, i + 1, j, ?_, ?_, ?_, rfl⟩ <;> dsimp only <;> omega
      · rw [if_neg hc2] at h; cases h
  · rw [if_neg hc1] at h; cases h

theorem attemptUnderscore_bounded {text : List Char} {i : Nat} {m : MatchInfo} {nxt : Nat}
    (h : attemptUnderscore text i = some (m, nxt)) : MatchBounded text m := by
  unfold attemptUnderscore at h
  by_cases hc1 : prefixAt (("_").data) text i = true
  · rw [if_pos hc1] at h
    cases hfind : findFrom text (("_").data) (i + 2) with
    | none => rw [hfind] at h; dsimp only at h; cases h
    | some j =>
      rw [hfind] at h
      dsimp only at h
      by_cases hc2 : noNL (sub text (i + 1) j) = true
      · rw [if_pos hc2] at h
        cases h
        obtain ⟨hj, -⟩ := findFrom_some hfind
        have hb := findFrom_bound hfind (by decide)
        rw [show ((("_").data).length) = 1 from rfl] at hb
        refine ⟨?_, ?_, i + 1, j, ?_, ?_, ?_, rfl⟩ <;> dsimp only <;> omega
      · rw [if_neg hc2] at h; cases h
  · rw [if_neg hc1] at h; cases h

theorem attemptBacktick_bounded {text : List Char} {i : Nat} {m : MatchInfo} {nxt : Nat}
    (h : attemptBacktick text i = some (m, nxt)) : MatchBounded text m := by
  unfold attemptBacktick at h
  by_cases hc1 : prefixAt (("`").data) text i = true
  · rw [if_pos hc1] at h
    cases hfind : findFrom text (("`").data) (i + 2) with
    | none => rw [hfind] at h; dsimp only at h; cases h
    | some j =>
      rw [hfind] at h
      dsimp only at h
      by_cases hc2 : noNL (sub text (i + 1) j) = true
      · rw [if_pos hc2] at h
        cases h
        obtain ⟨hj, -⟩ := findFrom_some hfind
        have hb := findFrom_bound hfind (by decide)
        rw [show ((("`").data).length) = 1 from rfl] at hb
        refine ⟨?_, ?_, i + 1, j, ?_, ?_, ?_, rfl⟩ <;> dsimp only <;> omega
      · rw [if_neg hc2] at h; cases h
  · rw [if_neg hc1] at h; cases h

theorem linkTryQ_bounded {text : List Char} {i : Nat} :
    ∀ (fuel q : Nat) {m : MatchInfo} {nxt : Nat}, i + 2 ≤ q →
    linkTryQ text i fuel q = some (m, nxt) → MatchBounded text m := by
  intro fuel
  induction fuel with
  | zero => intro q m nxt hq h; cases h
  | succ f ihf =>
    intro q m nxt hq h
    unfold linkTryQ at h
    by_cases hql : q < text.length
    · rw [if_pos hql] at h
      by_cases hn1 : noNL (sub text (i + 1) q) = true
      · rw [if_pos hn1] at h
        by_cases hc : (text.getD q ' ' = ']' && text.getD (q + 1) ' ' = '(') = true
        · rw [if_pos hc] at h
          cases hfind : findFrom text ((")").data) (q + 3) with
          | none => rw [hfind] at h; dsimp only at h; exact ihf (q + 1) (by omega) h
          | some r =>
            rw [hfind] at h
            dsimp only at h
            by_cases hn2 : noNL (sub text (q + 2) r) = true
            · rw [if_pos hn2] at h
              cases h
              obtain ⟨hr, -⟩ := findFrom_some hfind
              have hb := findFrom_bound hfind (by decide)
              rw [show (((")").data).length) = 1 from rfl] at hb
              refine ⟨?_, ?_, i + 1, q, ?_, ?_, ?_, rfl⟩ <;> dsimp only <;> omega
            · rw [if_neg hn2] at h; exact ihf (q + 1) (by omega) h
        · rw [if_neg hc] at h; exact ihf (q + 1) (by omega) h
      · rw [if_neg hn1] at h; cases h
    · rw [if_neg hql] at h; cases h

theorem attemptLink_bounded {text : List Char} {i : Nat} {m : MatchInfo} {nxt : Nat}
    (h : attemptLink text i = some (m, nxt)) : MatchBounded text m := by
  unfold attemptLink at h
  by_cases hc1 : text.getD i ' ' = '['
  · rw [if_pos hc1] at h
    exact linkTryQ_bounded (text.length + 1) (i + 2) (by omega) h
  · rw [if_neg hc1] at h; cases h

theorem scanLoopF_bounded {text : List Char} {attempt : Nat → Option (MatchInfo × Nat)}
    (hat : ∀ i m nxt, attempt i = some (m, nxt) → MatchBounded text m) :
    ∀ (fuel i : Nat), ∀ m ∈ scanLoopF text attempt fuel i, MatchBounded text m := by
  intro fuel
  induction fuel with
  | zero => intro i m hm; cases hm
  | succ f ihf =>
    intro i m hm
    unfold scanLoopF at hm
    by_cases hi : i < text.length
    · rw [if_pos hi] at hm
      cases hatt : attempt i with
      | none => rw [hatt] at hm; dsimp only at hm; exact ihf (i + 1) m hm
      | some p =>
        rw [hatt] at hm
        dsimp only at hm
        rcases List.mem_cons.mp hm with rfl | hm'
        · exact hat i _ p.2 (by rw [hatt])
        · exact ihf p.2 m hm'
    · rw [if_neg hi] at hm; cases hm

theorem addChecked_subset {m : MatchInfo} :
    ∀ (ms acc : List MatchInfo), m ∈ addChecked acc ms → m ∈ acc ∨ m ∈ ms := by
  intro ms
  induction ms with
  | nil => intro acc hm; exact Or.inl hm
  | cons x rest ih =>
    intro acc hm
    unfold addChecked at hm
    rw [List.foldl_cons] at hm
    have hm' := ih _ hm
    rcases hm' with hacc | hrest
    · by_cases hcov : coveredBy acc x = true
      · rw [if_pos hcov] at hacc; exact Or.inl hacc
      · rw [if_neg hcov] at hacc
        rcases List.mem_append.mp hacc with h1 | h2
        · exact Or.inl h1
        · rcases List.mem_singleton.mp h2 with rfl
          exact Or.inr (List.mem_cons_self _ _)
    · exact Or.inr (List.mem_cons_of_mem _ hrest)

theorem insertByStart_mem {m x : MatchInfo} :
    ∀ (l : List MatchInfo), m ∈ insertByStart x l → m = x ∨ m ∈ l := by
  intro l
  induction l with
  | nil => intro hm; rcases List.mem_singleton.mp hm with rfl; exact Or.inl rfl
  | cons y rest ih =>
    intro hm
    unfold insertByStart at hm
    by_cases hc : y.start ≤ x.start
    · rw [if_pos hc] at hm
      rcases List.mem_cons.mp hm with rfl | hm'
      · exact Or.inr (List.mem_cons_self _ _)
      · rcases ih hm' with h1 | h2
        · exact Or.inl h1
        · exact Or.inr (List.mem_cons_of_mem _ h2)
    · rw [if_neg hc] at hm
      rcases List.mem_cons.mp hm with rfl | hm'
      · exact Or.inl rfl
      · exact Or.inr hm'

theorem sortByStart_subset {m : MatchInfo} :
    ∀ (ms acc : List MatchInfo), m ∈ ms.foldl (fun acc m => insertByStart m acc) acc →
    m ∈ acc ∨ m ∈ ms := by
  intro ms
  induction ms with
  | nil => intro acc hm; exact Or.inl hm
  | cons x rest ih =>
    intro acc hm
    rw [List.foldl_cons] at hm
    rcases ih _ hm with h1 | h2
    · rcases insertByStart_mem _ h1 with rfl | h3
      · exact Or.inr (List.mem_cons_self _ _)
      · exact Or.inl h3
    · exact Or.inr (List.mem_cons_of_mem _ h2)

theorem sortByStart_mem {m : MatchInfo} {ms : List MatchInfo}
    (hm : m ∈ sortByStart ms) : m ∈ ms := by
  rcases sortByStart_subset ms [] hm with h1 | h2
  · cases h1
  · exact h2

theorem allMatches_bounded (text : List Char) :
    ∀ m ∈ allMatches text, MatchBounded text m := by
  intro m hm
  unfold allMatches at hm
  have h6 := addChecked_subset _ _ hm
  rcases h6 with h5 | hlink
  · rcases addChecked_subset _ _ h5 with h4 | hbt
    · rcases addChecked_subset _ _ h4 with h3 | hus
      · rcases addChecked_subset _ _ h3 with h2 | hsi
        · rcases addChecked_subset _ _ h2 with h1 | hdb
          · exact scanLoopF_bounded (fun i m nxt h => attemptTriple_bounded h) _ _ m h1
          · exact scanLoopF_bounded (fun i m nxt h => attemptDouble_bounded h) _ _ m hdb
        · exact scanLoopF_bounded (fun i m nxt h => attemptStarItalic_bounded h) _ _ m hsi
      · exact scanLoopF_bounded (fun i m nxt h => attemptUnderscore_bounded h) _ _ m hus
    · exact scanLoopF_bounded (fun i m nxt h => attemptBacktick_bounded h) _ _ m hbt
  · exact scanLoopF_bounded (fun i m nxt h => attemptLink_bounded h) _ _ m hlink

theorem drop_eq_sub_append (text : List Char) {a b : Nat} (hab : a ≤ b) :
    text.drop a = sub text a b ++ text.drop b := by
  have h1 : (text.drop a).drop (b - a) = text.drop b := by
    rw [List.drop_drop]
    congr 1
    omega
  calc text.drop a
      = (text.drop a).take (b - a) ++ (text.drop a).drop (b - a) :=
        (List.take_append_drop _ _).symm
    _ = sub text a b ++ text.drop b := by rw [h1]; rfl

theorem sub_sublist_sub (text : List Char) {a b s t : Nat}
    (hsa : s ≤ a) (hab : a ≤ b) (hbt : b ≤ t) :
    List.Sublist (sub text a b) (sub text s t) := by
  have hda : text.drop a = (text.drop s).drop (a - s) := by
    rw [List.drop_drop]
    congr 1
    omega
  unfold sub
  rw [hda, List.take_drop]
  refine List.Sublist.trans (List.drop_sublist _ _) ?_
  have h2 : (text.drop s).take (a - s + (b - a)) = ((text.drop s).take (t - s)).take (a - s + (b - a)) := by
    rw [List.take_take]
    congr 1
    omega
  rw [h2]
  exact List.take_sublist _ _

theorem sub_empty_of_ge (text : List Char) {a b : Nat} (h : b ≤ a) : sub text a b = [] := by
  unfold sub
  rw [show b - a = 0 from by omega]
  rfl

theorem joinContents_append (xs ys : List RichTextItem) :
    joinContents (xs ++ ys) = joinContents xs ++ joinContents ys := by
  unfold joinContents
  rw [List.map_append, List.flatten_append]

theorem buildFromMatches_join_sublist (text : List Char) :
    ∀ (ms : List MatchInfo) (pos : Nat),
    (∀ m ∈ ms, MatchBounded text m) →
    List.Sublist (joinContents (buildFromMatches text ms pos)) (text.drop pos) := by
  intro ms
  induction ms with
  | nil =>
    intro pos _
    unfold buildFromMatches
    by_cases h : pos < text.length
    · rw [if_pos h]
      simp [joinContents]
    · rw [if_neg h]
      exact List.nil_sublist _
  | cons m rest ih =>
    intro pos hok
    unfold buildFromMatches
    by_cases hskip : m.start < pos
    · rw [if_pos hskip]
      exact ih pos (fun x hx => hok x (List.mem_cons_of_mem _ hx))
    · rw [if_neg hskip]
      obtain ⟨h1, h2, a, b, hma, hab, hbm, hcont⟩ := hok m (List.mem_cons_self _ _)
      have hgap : joinContents
          ((if pos < m.start then
              (if sub text pos m.start = [] then [] else [({ content := sub text pos m.start } : RichTextItem)])
            else [])) = sub text pos m.start := by
        by_cases hg : pos < m.start
        · by_cases he : sub text pos m.start = []
          · rw [if_pos hg, if_pos he, he]
            rfl
          · rw [if_pos hg, if_neg he]
            simp [joinContents]
        · rw [if_neg hg, sub_empty_of_ge text (by omega)]
          rfl
      rw [joinContents_append, hgap]
      have hcons : joinContents (richOf m :: buildFromMatches text rest m.stop)
          = m.content ++ joinContents (buildFromMatches text rest m.stop) := by
        unfold joinContents richOf
        rw [List.map_cons, List.flatten_cons]
      rw [hcons]
      have hd1 : text.drop pos = sub text pos m.start ++ (sub text m.start m.stop ++ text.drop m.stop) := by
        rw [← drop_eq_sub_append text (le_of_lt (lt_of_lt_of_le h1 (le_of_eq rfl)))]
        · exact drop_eq_sub_append text (by omega)
      rw [hd1]
      refine List.Sublist.append (List.Sublist.refl _) (List.Sublist.append ?_ ?_)
      · rw [hcont]
        exact sub_sublist_sub text hma hab hbm
      · exact ih m.stop (fun x hx => hok x (List.mem_cons_of_mem _ hx))
theorem acceptedFrom_ge :
    ∀ (ms : List MatchInfo) (pos : Nat), (∀ m ∈ ms, m.start < m.stop) →
    ∀ m ∈ acceptedFrom pos ms, pos ≤ m.start := by
  intro ms
  induction ms with
  | nil => intro pos _ m hm; cases hm
  | cons x rest ih =>
    intro pos hok m hm
    unfold acceptedFrom at hm
    by_cases hx : x.start < pos
    · rw [if_pos hx] at hm
      exact ih pos (fun y hy => hok y (List.mem_cons_of_mem _ hy)) m hm
    · rw [if_neg hx] at hm
      rcases List.mem_cons.mp hm with rfl | hm'
      · omega
      · have h1 := ih x.stop (fun y hy => hok y (List.mem_cons_of_mem _ hy)) m hm'
        have h2 := hok x (List.mem_cons_self _ _)
        omega

theorem acceptedFrom_pairwise :
    ∀ (ms : List MatchInfo) (pos : Nat), (∀ m ∈ ms, m.start < m.stop) →
    List.Pairwise (fun a b => a.start < b.start ∧ a.stop ≤ b.start) (acceptedFrom pos ms) := by
  intro ms
  induction ms with
  | nil => intro pos _; exact List.Pairwise.nil
  | cons x rest ih =>
    intro pos hok
    unfold acceptedFrom
    by_cases hx : x.start < pos
    · rw [if_pos hx]
      exact ih pos (fun y hy => hok y (List.mem_cons_of_mem _ hy))
    · rw [if_neg hx]
      refine List.Pairwise.cons ?_ (ih x.stop (fun y hy => hok y (List.mem_cons_of_mem _ hy)))
      intro b hb
      have h1 := acceptedFrom_ge rest x.stop (fun y hy => hok y (List.mem_cons_of_mem _ hy)) b hb
      have h2 := hok x (List.mem_cons_self _ _)
      exact ⟨by omega, h1⟩

theorem buildFromMatches_filter (text : List Char) :
    ∀ (ms : List MatchInfo) (pos : Nat),
    (buildFromMatches text ms pos).filter (fun r => r.annotations.isSome)
      = (acceptedFrom pos ms).map richOf := by
  intro ms
  induction ms with
  | nil =>
    intro pos
    unfold buildFromMatches acceptedFrom
    by_cases h : pos < text.length
    · rw [if_pos h]; rfl
    · rw [if_neg h]; rfl
  | cons m rest ih =>
    intro pos
    unfold buildFromMatches acceptedFrom
    by_cases hskip : m.start < pos
    · rw [if_pos hskip, if_pos hskip]
      exact ih pos
    · rw [if_neg hskip, if_neg hskip]
      rw [List.filter_append]
      have hgapf : ((if pos < m.start then
          (if sub text pos m.start = [] then [] else [({ content := sub text pos m.start } : RichTextItem)])
          else []) : List RichTextItem).filter (fun r => r.annotations.isSome) = [] := by
        by_cases hg : pos < m.start
        · by_cases he : sub text pos m.start = []
          · rw [if_pos hg, if_pos he]; rfl
          · rw [if_pos hg, if_neg he]; rfl
        · rw [if_neg hg]; rfl
      rw [hgapf]
      rw [show (richOf m :: buildFromMatches text rest m.stop).filter (fun r => r.annotations.isSome)
          = richOf m :: (buildFromMatches text rest m.stop).filter (fun r => r.annotations.isSome) from by
        rw [List.filter_cons]
        rfl]
      rw [ih m.stop]
      rfl

/-- Claim C1, amended: concatenating the span contents produced by the inline
segmentor yields a subsequence of the segmented text — characters appear in
order and are never duplicated, but the marker characters (and link targets)
of accepted formatting candidates are removed — with equality exactly
reconstructing the text whenever no formatting candidate is matched.  Every
non-code block's spans are produced this way from its pre-segmentation text. -/
theorem parseInlineFormatting_join_sublist (text : List Char) :
    List.Sublist (joinContents (parseInlineFormatting text)) text
    ∧ (allMatches text = [] → joinContents (parseInlineFormatting text) = text) := by
  constructor
  · unfold parseInlineFormatting
    by_cases hres : buildFromMatches text (sortByStart (allMatches text)) 0 = []
    · rw [if_pos hres]
      simp [joinContents]
    · rw [if_neg hres]
      have h := buildFromMatches_join_sublist text (sortByStart (allMatches text)) 0
        (fun m hm => allMatches_bounded text m (sortByStart_mem hm))
      simpa using h
  · intro hall
    unfold parseInlineFormatting
    rw [hall]
    by_cases h0 : 0 < text.length
    · have hb : buildFromMatches text (sortByStart []) 0
          = [({ content := text.drop 0 } : RichTextItem)] := by
        unfold sortByStart buildFromMatches
        simp [h0]
      rw [hb]
      have hne : ¬([({ content := text.drop 0 } : RichTextItem)] = ([] : List RichTextItem)) := by
        simp
      rw [if_neg hne]
      simp [joinContents]
    · have htext : text = [] := by
        cases text with
        | nil => rfl
        | cons a t => simp at h0
      subst htext
      simp [sortByStart, buildFromMatches, joinContents]

/-- Counterexample to claim C1 as stated: on the input `"**b**"` the single
paragraph block's spans concatenate to `"b"`, not to the pre-segmentation
source text `"**b**"` — the matched `**` markers are dropped, contradicting
"formatting-marker characters are not lost". -/
theorem markdownToBlocks_span_concat_cex :
    markdownToBlocks (("**b**").data)
      = some [Block.paragraph [⟨("b").data, none,
          some ⟨true, false, false, false, false⟩⟩]]
    ∧ joinContents (parseInlineFormatting (("**b**").data)) = ("b").data
    ∧ ("b").data ≠ ("**b**").data :=
  ⟨rfl, rfl, by decide⟩

/-- Witness for the amended claim C1 at the concrete input `"q"`, which has no
formatting candidate, so the concatenation reconstructs the text exactly. -/
theorem parseInlineFormatting_join_sublist_witness :
    joinContents (parseInlineFormatting (("q").data)) = ("q").data :=
  (parseInlineFormatting_join_sublist (("q").data)).2 (by decide)

/-- Claim C10: the matches the build loop of `parseInlineFormatting` accepts
have pairwise disjoint intervals in strictly increasing start order, and the
annotated spans of the output are exactly the accepted matches in full — a
candidate starting inside a previously emitted span's interval is dropped
entirely, never truncated. -/
theorem parseInline_overlap_resolution (text : List Char) :
    List.Pairwise (fun a b => a.start < b.start ∧ a.stop ≤ b.start)
      (acceptedFrom 0 (sortByStart (allMatches text)))
    ∧ (parseInlineFormatting text).filter (fun r => r.annotations.isSome)
      = (acceptedFrom 0 (sortByStart (allMatches text))).map richOf := by
  have hok : ∀ m ∈ sortByStart (allMatches text), m.start < m.stop :=
    fun m hm => (allMatches_bounded text m (sortByStart_mem hm)).1
  constructor
  · exact acceptedFrom_pairwise _ 0 hok
  · unfold parseInlineFormatting
    by_cases hres : buildFromMatches text (sortByStart (allMatches text)) 0 = []
    · rw [if_pos hres]
      have h := buildFromMatches_filter text (sortByStart (allMatches text)) 0
      rw [hres] at h
      rw [show (([({ content := text } : RichTextItem)]).filter
          (fun r => r.annotations.isSome)) = [] from rfl]
      exact h
    · rw [if_neg hres]
      exact buildFromMatches_filter text _ 0
